import Mathlib

/-!
Verification of the temp-file / cache sweep engine of PC_Cleanup_Master.

The development shallowly embeds the deletion logic of the repository:

* `sweepList` models `PCCleanupTool._clean_directory_recursive` together with
  `PCCleanupTool.safe_delete_file` and `PCCleanupTool.is_file_in_use`
  (Project_Version_1/PC_Cleanup_Tool/main.py, lines 68-165);
* `clean_temp_files` models `PCCleanupTool.clean_temp_files` (main.py 106-139);
* `cleanup_temp_files_v2` models `V2CleanupEngine._cleanup_temp_files`
  (Project_Version_2/PC_Cleanup_Tool_V2/v2_core_engine.py 445-496);
* `one_click_progress` models the sequence of progress percentages emitted by
  `V2CleanupEngine.perform_one_click_cleanup` (v2_core_engine.py 367-434);
* `safe_remove_cache_directory` and `clean_browser_cache` model the
  corresponding methods of `BrowserCacheCleaner`
  (Project_Version_1/PC_Cleanup_Tool_V1/browser_cleaner.py 111-215).

A filesystem is a finite tree of entries.  Each file carries the flags that
drive the OS-error branches of the source: `locked` (the rename-to-itself
check of `is_file_in_use` fails, and so would a raw unlink), and
`deleteFails` (the `stat`/`unlink` call inside the `try` block raises
`PermissionError`/`OSError`).  Each directory carries `accessFails`
(`iterdir()` raises) and `rmdirFails` (`rmdir()` raises although the
directory is empty).  The model is sequential, so an entry returned by a
directory listing exists when it is visited (`filepath.exists()` is true) and
`stat` on an unlocked, deletable file succeeds; the `NotFound` race branches
of the source are therefore never taken.
-/

/-- A filesystem entry: a regular file (with its size in bytes and its
OS-failure flags) or a directory with its children. -/
inductive Entry where
  | file (name : String) (size : Nat) (locked : Bool) (deleteFails : Bool)
  | dir (name : String) (accessFails : Bool) (rmdirFails : Bool) (children : List Entry)
deriving Repr

/-- The name of a filesystem entry. -/
def Entry.name : Entry → String
  | .file n _ _ _ => n
  | .dir n _ _ _ => n

/-- The running counters held in `PCCleanupTool.cleanup_stats` that the
temp-file sweep mutates (main.py 33-40): `temp_files_deleted`,
`temp_size_freed` and `errors_encountered`. -/
structure CleanupStats where
  temp_files_deleted : Nat
  temp_size_freed : Nat
  errors_encountered : Nat
deriving Repr, DecidableEq

/-- An observable action of the sweep: a successful file deletion (with the
size read from `stat` just before the `unlink` call, main.py 93-94) or a
successful removal of an emptied directory (main.py 158). -/
inductive Ev where
  | deleted (path : List String) (size : Nat)
  | rmdir (path : List String)
deriving Repr, DecidableEq

/-- The path named by an event. -/
def Ev.path : Ev → List String
  | .deleted p _ => p
  | .rmdir p => p

/-- Model of `PCCleanupTool.is_file_in_use` (main.py 68-78): the file is
renamed to itself; the rename raises exactly when another process holds the
file, which the model records in the file's `locked` flag.  All OS errors are
caught inside the method, so it never raises. -/
def is_file_in_use (locked : Bool) : Bool := locked

/-- Model of `PCCleanupTool.safe_delete_file` (main.py 80-104) on a file that
the directory listing just produced (so `filepath.exists()` holds).  Returns
whether the file was deleted, the updated counters, and the size recorded for
a successful deletion.  A locked file is skipped with only a log warning; a
failing `stat`/`unlink` is caught and counted in `errors_encountered`; a
successful deletion bumps `temp_files_deleted` and adds the pre-deletion
`stat` size to `temp_size_freed`. -/
def safe_delete_file (size : Nat) (locked deleteFails : Bool) (st : CleanupStats) :
    Bool × CleanupStats :=
  if is_file_in_use locked then
    (false, st)
  else if deleteFails then
    (false, { st with errors_encountered := st.errors_encountered + 1 })
  else
    (true, { st with temp_files_deleted := st.temp_files_deleted + 1,
                     temp_size_freed := st.temp_size_freed + size })

/-- Model of `PCCleanupTool._clean_directory_recursive` (main.py 141-165),
applied to the listing of one directory.  `pfx` is the path of the directory
being listed, `d` the current depth (`0` for the direct children of the
sweep root) and `maxDepth` the depth limit (the source default is `3`).
Returns the entries that survive the sweep, the updated counters, and the
events in the order the sweep performs them.

* a file goes through `safe_delete_file`;
* a subdirectory is entered only when `d < maxDepth`; if its `iterdir()`
  raises, the recursive call catches the error and counts it
  (main.py 163-165), and the subsequent emptiness probe of the parent loop
  raises too and is swallowed (main.py 156-161), leaving the subdirectory
  untouched; otherwise the children are swept first and then, if nothing is
  left, `rmdir` is attempted, with any failure swallowed silently;
* at `d ≥ maxDepth` a subdirectory is left entirely untouched. -/
def sweepList (maxDepth : Nat) : Nat → List String → List Entry → CleanupStats →
    List Entry × CleanupStats × List Ev
  | _, _, [], st => ([], st, [])
  | d, pfx, .file n sz lk df :: rest, st =>
    let del := safe_delete_file sz lk df st
    let s := sweepList maxDepth d pfx rest del.2
    if del.1 then (s.1, s.2.1, .deleted (pfx ++ [n]) sz :: s.2.2)
    else (.file n sz lk df :: s.1, s.2.1, s.2.2)
  | d, pfx, .dir n af rf cs :: rest, st =>
    if d < maxDepth then
      if af then
        let s := sweepList maxDepth d pfx rest
          { st with errors_encountered := st.errors_encountered + 1 }
        (.dir n af rf cs :: s.1, s.2.1, s.2.2)
      else
        let c := sweepList maxDepth (d + 1) (pfx ++ [n]) cs st
        let s := sweepList maxDepth d pfx rest c.2.1
        if c.1.isEmpty && !rf then
          (s.1, s.2.1, c.2.2 ++ .rmdir (pfx ++ [n]) :: s.2.2)
        else
          (.dir n af rf c.1 :: s.1, s.2.1, c.2.2 ++ s.2.2)
    else
      let s := sweepList maxDepth d pfx rest st
      (.dir n af rf cs :: s.1, s.2.1, s.2.2)

/-- Model of `BrowserCacheCleaner.get_directory_size` (browser_cleaner.py
111-125), applied to a directory's contents: the sum of the sizes of every
file anywhere below it (`rglob`); in the sequential model every `stat`
succeeds. -/
def get_directory_size : List Entry → Nat
  | [] => 0
  | .file _ sz _ _ :: rest => sz + get_directory_size rest
  | .dir _ _ _ cs :: rest => get_directory_size cs + get_directory_size rest

/-- A root directory handed to the V1 temp sweep: its path string, whether
its own `iterdir()` raises, and its contents.  The list of roots plays the
role of the filesystem; a path string that matches no root does not exist
(`d.exists() and d.is_dir()` is false for it). -/
structure V1Root where
  name : String
  accessFails : Bool
  children : List Entry
deriving Repr

/-- The dictionary returned by `PCCleanupTool.clean_temp_files`
(main.py 135-139): `files_deleted`, `size_freed_mb` (bytes divided twice by
1024, modelled as an exact rational) and `directories_processed`. -/
structure TempCleanupResult where
  files_deleted : Nat
  size_freed_mb : ℚ
  directories_processed : Nat
deriving Repr, DecidableEq

/-- One step of the `for temp_dir in temp_dirs` loop of `clean_temp_files`
(main.py 126-128): `_clean_directory_recursive(temp_dir)` with the default
`max_depth = 3`, starting at depth `0` on the root's own listing.  If the
root's `iterdir()` raises, the error is caught and counted
(main.py 163-165); the root directory itself is never removed. -/
def clean_one_root (r : V1Root) (st : CleanupStats) : V1Root × CleanupStats :=
  if r.accessFails then
    (r, { st with errors_encountered := st.errors_encountered + 1 })
  else
    let s := sweepList 3 0 [r.name] r.children st
    ({ r with children := s.1 }, s.2.1)

/-- Sweeping the directory a path string denotes: every root whose name is
the path (unique in a well-formed filesystem) is swept, the others are left
alone. -/
def clean_path (p : String) : List V1Root → CleanupStats → List V1Root × CleanupStats
  | [], st => ([], st)
  | r :: rs, st =>
    if r.name = p then
      let c := clean_one_root r st
      let s := clean_path p rs c.2
      (c.1 :: s.1, s.2)
    else
      let s := clean_path p rs st
      (r :: s.1, s.2)

/-- The loop of `clean_temp_files` over the deduplicated, existing temp
directories, threading the filesystem (the sweep of one root mutates only
that root's contents). -/
def clean_roots : List String → List V1Root → CleanupStats → List V1Root × CleanupStats
  | [], roots, st => (roots, st)
  | p :: ps, roots, st =>
    let s := clean_path p roots st
    clean_roots ps s.1 s.2

/-- Model of `PCCleanupTool.clean_temp_files` (main.py 106-139).  `paths` are
the candidate temp-directory path strings (main.py 113-119); duplicates are
removed (`set(temp_dirs)` keeps one copy of each distinct path value and
iterates in an unspecified order; the model fixes the order `List.dedup`
yields — the counters do not depend on it) and paths that do not exist as
directories are dropped (main.py 122).  Each surviving root is then swept
and the returned dictionary reports the deltas of the shared running
counters (main.py 124-139). -/
def clean_temp_files (paths : List String) (roots : List V1Root) (st : CleanupStats) :
    TempCleanupResult × List V1Root × CleanupStats :=
  let dirs := paths.dedup.filter fun p => roots.any fun r => r.name = p
  let s := clean_roots dirs roots st
  ({ files_deleted := s.2.temp_files_deleted - st.temp_files_deleted,
     size_freed_mb := ((s.2.temp_size_freed - st.temp_size_freed : ℕ) : ℚ) / 1024 / 1024,
     directories_processed := dirs.length },
   s.1, s.2)

/-- A file seen by the V2 temp walk: its size and whether `os.remove` on it
raises (v2_core_engine.py 470-476). -/
structure V2File where
  size : Nat
  removeFails : Bool
deriving Repr, DecidableEq

/-- A temp directory for the V2 engine.  `os.walk` visits every file below
the root, so the model keeps the walked files as one flat list per root; the
list of roots is the filesystem, and a path string matching no root fails
the `os.path.exists(temp_dir)` test (v2_core_engine.py 462). -/
structure V2TempDir where
  name : String
  files : List V2File
deriving Repr, DecidableEq

/-- The numeric counters of the V2 `CleanupResult` dataclass
(v2_core_engine.py 52-62) that `_cleanup_temp_files` fills in; the wall-clock
fields (`time_taken`) are outside the model. -/
structure V2Stats where
  files_processed : Nat
  files_deleted : Nat
  space_freed : Nat
  errors_encountered : Nat
deriving Repr, DecidableEq

/-- The inner `for file in files` loop of `_cleanup_temp_files`
(v2_core_engine.py 465-476): every file counts into `files_processed`; a
failing `os.remove` is caught and counted into `errors`; a successful remove
counts into `files_deleted` and adds the `os.path.getsize` value (read before
the remove) to `space_freed`.  Returns the surviving files and the updated
counters. -/
def v2_process_files : List V2File → V2Stats → List V2File × V2Stats
  | [], st => ([], st)
  | f :: fs, st =>
    let st0 := { st with files_processed := st.files_processed + 1 }
    if f.removeFails then
      let s := v2_process_files fs
        { st0 with errors_encountered := st0.errors_encountered + 1 }
      (f :: s.1, s.2)
    else
      let s := v2_process_files fs
        { st0 with files_deleted := st0.files_deleted + 1,
                   space_freed := st0.space_freed + f.size }
      (s.1, s.2)

/-- One iteration of the `for temp_dir in temp_dirs` loop of
`_cleanup_temp_files`: the walk of the named root, if it exists, threading
the filesystem (deleted files are gone when the same root is walked again). -/
def v2_clean_path (p : String) : List V2TempDir → V2Stats → List V2TempDir × V2Stats
  | [], st => ([], st)
  | d :: ds, st =>
    if d.name = p then
      let w := v2_process_files d.files st
      let s := v2_clean_path p ds w.2
      ({ d with files := w.1 } :: s.1, s.2)
    else
      let s := v2_clean_path p ds st
      (d :: s.1, s.2)

/-- Model of `V2CleanupEngine._cleanup_temp_files` (v2_core_engine.py
445-496): the temp-directory path list is walked in order, without any
deduplication; a path that does not exist is skipped silently.  Returns the
counters of the `CleanupResult` and the filesystem left behind. -/
def cleanup_temp_files_v2 : List String → List V2TempDir → V2Stats × List V2TempDir
  | [], fs => (⟨0, 0, 0, 0⟩, fs)
  | p :: ps, fs =>
    let w := v2_clean_path p fs ⟨0, 0, 0, 0⟩
    let s := cleanup_temp_files_v2 ps w.1
    ({ files_processed := w.2.files_processed + s.1.files_processed,
       files_deleted := w.2.files_deleted + s.1.files_deleted,
       space_freed := w.2.space_freed + s.1.space_freed,
       errors_encountered := w.2.errors_encountered + s.1.errors_encountered }, s.2)

/-- The progress percentages `capture_system_state` pushes through
`update_progress` (v2_core_engine.py 125-127): a single `0`. -/
def capture_system_state_progress : List Nat := [0]

/-- The percentage arguments handed to the progress callback over one
successful `perform_one_click_cleanup` run (v2_core_engine.py 367-434): `5`,
then the emission of the first `capture_system_state` call, then
`15 + (current_operation * 10)` for the six cleanup operations, then `85`,
the emission of the second `capture_system_state` call, `95` and `100`.
None of the six `_cleanup_*`/`_optimize_*` helpers emits progress itself. -/
def one_click_progress : List Nat :=
  [5] ++ capture_system_state_progress
    ++ ((List.range 6).map fun i => 15 + (i + 1) * 10)
    ++ [85] ++ capture_system_state_progress ++ [95, 100]

/-- Model of `shutil.rmtree(item, ignore_errors=True)` (browser_cleaner.py
145) on a list of entries: every unlocked, deletable file is unlinked, a
subdirectory whose listing fails keeps its whole subtree, and an emptied
directory is removed unless its `rmdir` fails; all errors are ignored limb by
limb.  Returns the surviving entries. -/
def rmtree_ignore_errors : List Entry → List Entry
  | [] => []
  | .file n sz lk df :: rest =>
    (if lk || df then [Entry.file n sz lk df] else []) ++ rmtree_ignore_errors rest
  | .dir n af rf cs :: rest =>
    (if af then [Entry.dir n af rf cs]
     else
       let cs' := rmtree_ignore_errors cs
       if cs'.isEmpty && !rf then [] else [Entry.dir n af rf cs']) ++ rmtree_ignore_errors rest

/-- The `for item in cache_path.iterdir()` loop of
`safe_remove_cache_directory` (browser_cleaner.py 139-149): a top-level file
is unlinked (a raising unlink is caught, logged and skipped); a top-level
directory goes through `shutil.rmtree(..., ignore_errors=True)`.  Returns the
surviving contents and the `files_removed` count, which counts one per
successfully unlinked file and one per directory handed to `rmtree`
(regardless of how much of it was actually removed). -/
def remove_cache_contents : List Entry → List Entry × Nat
  | [] => ([], 0)
  | .file n sz lk df :: rest =>
    let s := remove_cache_contents rest
    if lk || df then (Entry.file n sz lk df :: s.1, s.2) else (s.1, s.2 + 1)
  | .dir n af rf cs :: rest =>
    let s := remove_cache_contents rest
    let resid :=
      if af then [Entry.dir n af rf cs]
      else
        let cs' := rmtree_ignore_errors cs
        if cs'.isEmpty && !rf then [] else [Entry.dir n af rf cs']
    (resid ++ s.1, s.2 + 1)

/-- A browser cache directory: whether its own `iterdir()` raises, and its
contents.  `none` stands for a `cache_path` that does not exist. -/
structure CacheDir where
  accessFails : Bool
  children : List Entry
deriving Repr

/-- Model of `BrowserCacheCleaner.safe_remove_cache_directory`
(browser_cleaner.py 127-159).  A missing path returns `(False, 0)`; a path
whose listing raises is caught by the outer handler and returns `(False, 0)`
with nothing removed; otherwise the contents are removed item by item and the
reported `size_freed` is `get_directory_size` before minus after.  Returns
the success flag, the size, and the cache directory left behind. -/
def safe_remove_cache_directory : Option CacheDir → (Bool × Nat) × Option CacheDir
  | none => ((false, 0), none)
  | some c =>
    if c.accessFails then ((false, 0), some c)
    else
      let initial := get_directory_size c.children
      let rem := (remove_cache_contents c.children).1
      let final := get_directory_size rem
      ((true, initial - final), some { c with children := rem })

/-- The result dictionary of `BrowserCacheCleaner.clean_browser_cache`
(browser_cleaner.py 208-215), restricted to the fields the model tracks. -/
structure BrowserCleanResult where
  success : Bool
  size_freed : Nat
  paths_cleaned : Nat
  errors : Nat
deriving Repr, DecidableEq

/-- The `for cache_path in cache_paths + temp_paths` loop of
`clean_browser_cache` (browser_cleaner.py 196-202), threading the cache
directories: a successful `safe_remove_cache_directory` counts the path as
cleaned and accumulates its `size_freed`; a failed one on an existing path
counts an error entry. -/
def clean_cache_paths : List (Option CacheDir) →
    List (Option CacheDir) × Nat × Nat × Nat
  | [] => ([], 0, 0, 0)
  | c :: cs =>
    let w := safe_remove_cache_directory c
    let s := clean_cache_paths cs
    if w.1.1 then (w.2 :: s.1, w.1.2 + s.2.1, s.2.2.1 + 1, s.2.2.2)
    else (w.2 :: s.1, s.2.1, s.2.2.1, s.2.2.2 + (if c.isSome then 1 else 0))

/-- Model of `BrowserCacheCleaner.clean_browser_cache` (browser_cleaner.py
161-215) for a supported, non-Firefox browser: `running` is what
`is_browser_running` reports for the browser's process names.  With
`force = False` and the browser running, the method returns a failure
dictionary with `size_freed = 0` before touching any path; otherwise every
configured cache path is cleaned and `success` is whether at least one path
was cleaned.  Returns the result and the cache paths left behind. -/
def clean_browser_cache (running force : Bool) (paths : List (Option CacheDir)) :
    BrowserCleanResult × List (Option CacheDir) :=
  if !force && running then
    ({ success := false, size_freed := 0, paths_cleaned := 0, errors := 0 }, paths)
  else
    let s := clean_cache_paths paths
    ({ success := decide (0 < s.2.2.1), size_freed := s.2.1,
       paths_cleaned := s.2.2.1, errors := s.2.2.2 }, s.1)

/-- The bytes carried by the deletion events of a sweep: each event records
the size read from `stat` immediately before the successful `unlink`. -/
def evSizes : List Ev → Nat
  | [] => 0
  | .deleted _ sz :: evs => sz + evSizes evs
  | .rmdir _ :: evs => evSizes evs

/-- The number of deletion events of a sweep. -/
def evDeleteCount : List Ev → Nat
  | [] => 0
  | .deleted _ _ :: evs => 1 + evDeleteCount evs
  | .rmdir _ :: evs => evDeleteCount evs

/-- The locked files of a tree, in listing order, with their sizes. -/
def lockedFilesList : List Entry → List (String × Nat)
  | [] => []
  | .file n sz lk _ :: rest =>
    (if lk then [(n, sz)] else []) ++ lockedFilesList rest
  | .dir _ _ _ cs :: rest => lockedFilesList cs ++ lockedFilesList rest

/-- The directory entries of a listing (whole subtrees included). -/
def dirEntries : List Entry → List Entry
  | [] => []
  | .file _ _ _ _ :: rest => dirEntries rest
  | .dir n af rf cs :: rest => Entry.dir n af rf cs :: dirEntries rest

/-- The number of per-entry OS failures a V1 sweep of the given listing runs
into: a `stat`/`unlink` that raises on an unlocked file, and an `iterdir`
that raises on a subdirectory entered at depth `d < maxDepth`.  Locked files
contribute nothing (they are skipped before `unlink` is attempted), and
neither do `rmdir` failures (they are swallowed). -/
def visitedFailures (maxDepth : Nat) : Nat → List Entry → Nat
  | _, [] => 0
  | d, .file _ _ lk df :: rest =>
    (if !lk && df then 1 else 0) + visitedFailures maxDepth d rest
  | d, .dir _ af _ cs :: rest =>
    (if d < maxDepth then
      if af then 1 else visitedFailures maxDepth (d + 1) cs
     else 0) + visitedFailures maxDepth d rest

/-- The number of files a V1 sweep of the given listing deletes: the
unlocked, deletable files at depth at most `maxDepth`. -/
def deletedFilesCount (maxDepth : Nat) : Nat → List Entry → Nat
  | _, [] => 0
  | d, .file _ _ lk df :: rest =>
    (if !lk && !df then 1 else 0) + deletedFilesCount maxDepth d rest
  | d, .dir _ af _ cs :: rest =>
    (if d < maxDepth && !af then deletedFilesCount maxDepth (d + 1) cs else 0)
      + deletedFilesCount maxDepth d rest

/-- The bytes `shutil.rmtree(..., ignore_errors=True)` actually removes from
a listing: the sizes of the unlocked, deletable files in every reachable
subdirectory. -/
def rmtreeRemovedBytes : List Entry → Nat
  | [] => 0
  | .file _ sz lk df :: rest =>
    (if lk || df then 0 else sz) + rmtreeRemovedBytes rest
  | .dir _ af _ cs :: rest =>
    (if af then 0 else rmtreeRemovedBytes cs) + rmtreeRemovedBytes rest

/-- `q` lies strictly below the directory path `p`. -/
def strictlyBelow (p q : List String) : Prop := ∃ n r, q = p ++ n :: r

/-- Sibling names are distinct everywhere in the tree (the listing of one
real directory never repeats a name). -/
def wfSiblings : List Entry → Prop
  | [] => True
  | .file _ _ _ _ :: rest => wfSiblings rest
  | .dir _ _ _ cs :: rest =>
    ((cs.map Entry.name).Nodup ∧ wfSiblings cs) ∧ wfSiblings rest

/-- The bytes a V1 sweep of the given listing frees: the sizes of the
unlocked, deletable files at depth at most `maxDepth`. -/
def sweptBytes (maxDepth : Nat) : Nat → List Entry → Nat
  | _, [] => 0
  | d, .file _ sz lk df :: rest =>
    (if !lk && !df then sz else 0) + sweptBytes maxDepth d rest
  | d, .dir _ af _ cs :: rest =>
    (if d < maxDepth && !af then sweptBytes maxDepth (d + 1) cs else 0)
      + sweptBytes maxDepth d rest

theorem safe_delete_file_ok_iff (sz : Nat) (lk df : Bool) (st : CleanupStats) :
    (safe_delete_file sz lk df st).1 = true ↔ lk = false ∧ df = false := by
  cases lk <;> cases df <;> simp [safe_delete_file, is_file_in_use]

theorem evSizes_append (a b : List Ev) : evSizes (a ++ b) = evSizes a + evSizes b := by
  induction a with
  | nil => simp [evSizes]
  | cons e a ih => cases e <;> simp [evSizes, ih] <;> omega

theorem evDeleteCount_append (a b : List Ev) :
    evDeleteCount (a ++ b) = evDeleteCount a + evDeleteCount b := by
  induction a with
  | nil => simp [evDeleteCount]
  | cons e a ih => cases e <;> simp [evDeleteCount, ih] <;> omega

/-- The survivors and the events of a sweep do not depend on the incoming
counter values: the counters are a pure accumulator. -/
theorem sweepList_state_indep (maxDepth d : Nat) (pfx : List String) (es : List Entry)
    (st : CleanupStats) : ∀ st' : CleanupStats,
    (sweepList maxDepth d pfx es st).1 = (sweepList maxDepth d pfx es st').1 ∧
    (sweepList maxDepth d pfx es st).2.2 = (sweepList maxDepth d pfx es st').2.2 := by
  induction d, pfx, es, st using sweepList.induct maxDepth with
  | case1 d pfx st => intro st'; simp [sweepList]
  | case2 d pfx n sz lk df rest st del hok ih =>
    intro st'
    obtain ⟨hlk, hdf⟩ := (safe_delete_file_ok_iff sz lk df st).mp hok
    subst hlk; subst hdf
    have hrem : ∀ s1 s2 : CleanupStats,
        (sweepList maxDepth d pfx rest s1).1 = (sweepList maxDepth d pfx rest s2).1 :=
      fun s1 s2 => ((ih s1).1).symm.trans ((ih s2).1)
    have hev : ∀ s1 s2 : CleanupStats,
        (sweepList maxDepth d pfx rest s1).2.2 = (sweepList maxDepth d pfx rest s2).2.2 :=
      fun s1 s2 => ((ih s1).2).symm.trans ((ih s2).2)
    refine ⟨?_, ?_⟩ <;> simp [sweepList, safe_delete_file, is_file_in_use] <;>
      first
        | exact hrem _ _
        | exact hev _ _
  | case3 d pfx n sz lk df rest st del hok ih =>
    intro st'
    have hrem : ∀ s1 s2 : CleanupStats,
        (sweepList maxDepth d pfx rest s1).1 = (sweepList maxDepth d pfx rest s2).1 :=
      fun s1 s2 => ((ih s1).1).symm.trans ((ih s2).1)
    have hev : ∀ s1 s2 : CleanupStats,
        (sweepList maxDepth d pfx rest s1).2.2 = (sweepList maxDepth d pfx rest s2).2.2 :=
      fun s1 s2 => ((ih s1).2).symm.trans ((ih s2).2)
    cases lk <;> cases df
    · exact absurd rfl hok
    all_goals
      refine ⟨?_, ?_⟩ <;> simp [sweepList, safe_delete_file, is_file_in_use] <;>
        first
          | exact hrem _ _
          | exact hev _ _
  | case4 d pfx n rf cs rest st hd ih =>
    intro st'
    have hrem : ∀ s1 s2 : CleanupStats,
        (sweepList maxDepth d pfx rest s1).1 = (sweepList maxDepth d pfx rest s2).1 :=
      fun s1 s2 => ((ih s1).1).symm.trans ((ih s2).1)
    have hev : ∀ s1 s2 : CleanupStats,
        (sweepList maxDepth d pfx rest s1).2.2 = (sweepList maxDepth d pfx rest s2).2.2 :=
      fun s1 s2 => ((ih s1).2).symm.trans ((ih s2).2)
    refine ⟨?_, ?_⟩ <;> simp [sweepList, hd] <;>
      first
        | exact hrem _ _
        | exact hev _ _
  | case5 d pfx n af rf cs rest st hd haf c hemp ih1 ih2 =>
    intro st'
    have hc : c = sweepList maxDepth (d + 1) (pfx ++ [n]) cs st := rfl
    rw [hc] at hemp
    have haf' : af = false := Bool.eq_false_iff.mpr haf
    subst haf'
    have hrem : ∀ s1 s2 : CleanupStats,
        (sweepList maxDepth d pfx rest s1).1 = (sweepList maxDepth d pfx rest s2).1 :=
      fun s1 s2 => ((ih2 s1).1).symm.trans ((ih2 s2).1)
    have hev : ∀ s1 s2 : CleanupStats,
        (sweepList maxDepth d pfx rest s1).2.2 = (sweepList maxDepth d pfx rest s2).2.2 :=
      fun s1 s2 => ((ih2 s1).2).symm.trans ((ih2 s2).2)
    have hemp' : ((sweepList maxDepth (d + 1) (pfx ++ [n]) cs st').1.isEmpty && !rf) = true := by
      rw [← (ih1 st').1]; exact hemp
    refine ⟨?_, ?_⟩ <;> simp [sweepList, hd, hemp, hemp'] <;>
      first
        | exact hrem _ _
        | exact hev _ _
        | exact congrArg₂ (· ++ ·) ((ih1 st').2) (congrArg _ (hev _ _))
  | case6 d pfx n af rf cs rest st hd haf c hemp ih1 ih2 =>
    intro st'
    have hc : c = sweepList maxDepth (d + 1) (pfx ++ [n]) cs st := rfl
    rw [hc] at hemp
    have haf' : af = false := Bool.eq_false_iff.mpr haf
    subst haf'
    have hrem : ∀ s1 s2 : CleanupStats,
        (sweepList maxDepth d pfx rest s1).1 = (sweepList maxDepth d pfx rest s2).1 :=
      fun s1 s2 => ((ih2 s1).1).symm.trans ((ih2 s2).1)
    have hev : ∀ s1 s2 : CleanupStats,
        (sweepList maxDepth d pfx rest s1).2.2 = (sweepList maxDepth d pfx rest s2).2.2 :=
      fun s1 s2 => ((ih2 s1).2).symm.trans ((ih2 s2).2)
    have hemp' : ¬((sweepList maxDepth (d + 1) (pfx ++ [n]) cs st').1.isEmpty && !rf) = true := by
      rw [← (ih1 st').1]; exact hemp
    refine ⟨?_, ?_⟩ <;> simp [sweepList, hd, hemp, hemp'] <;>
      first
        | exact hrem _ _
        | exact hev _ _
        | exact ⟨(ih1 st').1, hrem _ _⟩
        | exact congrArg₂ (· ++ ·) ((ih1 st').2) (hev _ _)
  | case7 d pfx n af rf cs rest st hd ih =>
    intro st'
    have hrem : ∀ s1 s2 : CleanupStats,
        (sweepList maxDepth d pfx rest s1).1 = (sweepList maxDepth d pfx rest s2).1 :=
      fun s1 s2 => ((ih s1).1).symm.trans ((ih s2).1)
    have hev : ∀ s1 s2 : CleanupStats,
        (sweepList maxDepth d pfx rest s1).2.2 = (sweepList maxDepth d pfx rest s2).2.2 :=
      fun s1 s2 => ((ih s1).2).symm.trans ((ih s2).2)
    refine ⟨?_, ?_⟩ <;> simp [sweepList, hd] <;>
      first
        | exact hrem _ _
        | exact hev _ _

/-- The three counters after a sweep are the incoming counters plus deltas
fully determined by the tree and the depth bound: the number of unlocked,
deletable files visited, their total size, and the number of OS failures
encountered.  Locked files appear in none of the three deltas. -/
theorem sweepList_stats_char (maxDepth d : Nat) (pfx : List String) (es : List Entry)
    (st : CleanupStats) :
    (sweepList maxDepth d pfx es st).2.1.temp_files_deleted
      = st.temp_files_deleted + deletedFilesCount maxDepth d es ∧
    (sweepList maxDepth d pfx es st).2.1.temp_size_freed
      = st.temp_size_freed + sweptBytes maxDepth d es ∧
    (sweepList maxDepth d pfx es st).2.1.errors_encountered
      = st.errors_encountered + visitedFailures maxDepth d es := by
  induction d, pfx, es, st using sweepList.induct maxDepth with
  | case1 d pfx st =>
    simp [sweepList, deletedFilesCount, sweptBytes, visitedFailures]
  | case2 d pfx n sz lk df rest st del hok ih =>
    obtain ⟨hlk, hdf⟩ := (safe_delete_file_ok_iff sz lk df st).mp hok
    subst hlk; subst hdf
    obtain ⟨h1, h2, h3⟩ := ih
    have hdel : del = safe_delete_file sz false false st := rfl
    rw [hdel] at h1 h2 h3
    simp [safe_delete_file, is_file_in_use] at h1 h2 h3
    refine ⟨?_, ?_, ?_⟩ <;>
      simp [sweepList, safe_delete_file, is_file_in_use, deletedFilesCount, sweptBytes,
        visitedFailures, h1, h2, h3] <;>
      omega
  | case3 d pfx n sz lk df rest st del hok ih =>
    obtain ⟨h1, h2, h3⟩ := ih
    cases lk <;> cases df
    · exact absurd rfl hok
    case false.true =>
      rw [show del = safe_delete_file sz false true st from rfl] at h1 h2 h3
      simp [safe_delete_file, is_file_in_use] at h1 h2 h3
      refine ⟨?_, ?_, ?_⟩ <;>
        simp [sweepList, safe_delete_file, is_file_in_use, deletedFilesCount, sweptBytes,
          visitedFailures, h1, h2, h3] <;>
        omega
    case true.false =>
      rw [show del = safe_delete_file sz true false st from rfl] at h1 h2 h3
      simp [safe_delete_file, is_file_in_use] at h1 h2 h3
      refine ⟨?_, ?_, ?_⟩ <;>
        simp [sweepList, safe_delete_file, is_file_in_use, deletedFilesCount, sweptBytes,
          visitedFailures, h1, h2, h3] <;>
        omega
    case true.true =>
      rw [show del = safe_delete_file sz true true st from rfl] at h1 h2 h3
      simp [safe_delete_file, is_file_in_use] at h1 h2 h3
      refine ⟨?_, ?_, ?_⟩ <;>
        simp [sweepList, safe_delete_file, is_file_in_use, deletedFilesCount, sweptBytes,
          visitedFailures, h1, h2, h3] <;>
        omega
  | case4 d pfx n rf cs rest st hd ih =>
    obtain ⟨h1, h2, h3⟩ := ih
    refine ⟨?_, ?_, ?_⟩ <;>
      simp [sweepList, hd, deletedFilesCount, sweptBytes, visitedFailures, h1, h2, h3] <;>
      omega
  | case5 d pfx n af rf cs rest st hd haf c hemp ih1 ih2 =>
    have haf' : af = false := Bool.eq_false_iff.mpr haf
    subst haf'
    have hc : c = sweepList maxDepth (d + 1) (pfx ++ [n]) cs st := rfl
    rw [hc] at hemp
    obtain ⟨h1, h2, h3⟩ := ih1
    obtain ⟨h4, h5, h6⟩ := ih2
    rw [hc] at h4 h5 h6
    refine ⟨?_, ?_, ?_⟩ <;>
      simp [sweepList, hd, hemp, deletedFilesCount, sweptBytes, visitedFailures,
        h1, h2, h3, h4, h5, h6] <;>
      omega
  | case6 d pfx n af rf cs rest st hd haf c hemp ih1 ih2 =>
    have haf' : af = false := Bool.eq_false_iff.mpr haf
    subst haf'
    have hc : c = sweepList maxDepth (d + 1) (pfx ++ [n]) cs st := rfl
    rw [hc] at hemp
    obtain ⟨h1, h2, h3⟩ := ih1
    obtain ⟨h4, h5, h6⟩ := ih2
    rw [hc] at h4 h5 h6
    refine ⟨?_, ?_, ?_⟩ <;>
      simp [sweepList, hd, hemp, deletedFilesCount, sweptBytes, visitedFailures,
        h1, h2, h3, h4, h5, h6] <;>
      omega
  | case7 d pfx n af rf cs rest st hd ih =>
    obtain ⟨h1, h2, h3⟩ := ih
    refine ⟨?_, ?_, ?_⟩ <;>
      simp [sweepList, hd, deletedFilesCount, sweptBytes, visitedFailures, h1, h2, h3] <;>
      omega

/-- The deletion events of a sweep account exactly for the deleted files:
their number and their recorded sizes match the per-file deltas. -/
theorem sweepList_events_char (maxDepth d : Nat) (pfx : List String) (es : List Entry)
    (st : CleanupStats) :
    evDeleteCount (sweepList maxDepth d pfx es st).2.2 = deletedFilesCount maxDepth d es ∧
    evSizes (sweepList maxDepth d pfx es st).2.2 = sweptBytes maxDepth d es := by
  induction d, pfx, es, st using sweepList.induct maxDepth with
  | case1 d pfx st =>
    simp [sweepList, evDeleteCount, evSizes, deletedFilesCount, sweptBytes]
  | case2 d pfx n sz lk df rest st del hok ih =>
    obtain ⟨hlk, hdf⟩ := (safe_delete_file_ok_iff sz lk df st).mp hok
    subst hlk; subst hdf
    obtain ⟨h1, h2⟩ := ih
    rw [show del = safe_delete_file sz false false st from rfl] at h1 h2
    simp [safe_delete_file, is_file_in_use] at h1 h2
    refine ⟨?_, ?_⟩ <;>
      simp [sweepList, safe_delete_file, is_file_in_use, evDeleteCount, evSizes,
        deletedFilesCount, sweptBytes, h1, h2]
  | case3 d pfx n sz lk df rest st del hok ih =>
    obtain ⟨h1, h2⟩ := ih
    cases lk <;> cases df
    · exact absurd rfl hok
    case false.true =>
      rw [show del = safe_delete_file sz false true st from rfl] at h1 h2
      simp [safe_delete_file, is_file_in_use] at h1 h2
      refine ⟨?_, ?_⟩ <;>
        simp [sweepList, safe_delete_file, is_file_in_use, evDeleteCount, evSizes,
          deletedFilesCount, sweptBytes, h1, h2]
    case true.false =>
      rw [show del = safe_delete_file sz true false st from rfl] at h1 h2
      simp [safe_delete_file, is_file_in_use] at h1 h2
      refine ⟨?_, ?_⟩ <;>
        simp [sweepList, safe_delete_file, is_file_in_use, evDeleteCount, evSizes,
          deletedFilesCount, sweptBytes, h1, h2]
    case true.true =>
      rw [show del = safe_delete_file sz true true st from rfl] at h1 h2
      simp [safe_delete_file, is_file_in_use] at h1 h2
      refine ⟨?_, ?_⟩ <;>
        simp [sweepList, safe_delete_file, is_file_in_use, evDeleteCount, evSizes,
          deletedFilesCount, sweptBytes, h1, h2]
  | case4 d pfx n rf cs rest st hd ih =>
    obtain ⟨h1, h2⟩ := ih
    refine ⟨?_, ?_⟩ <;>
      simp [sweepList, hd, evDeleteCount, evSizes, deletedFilesCount, sweptBytes, h1, h2]
  | case5 d pfx n af rf cs rest st hd haf c hemp ih1 ih2 =>
    have haf' : af = false := Bool.eq_false_iff.mpr haf
    subst haf'
    have hc : c = sweepList maxDepth (d + 1) (pfx ++ [n]) cs st := rfl
    rw [hc] at hemp
    obtain ⟨h1, h2⟩ := ih1
    obtain ⟨h3, h4⟩ := ih2
    rw [hc] at h3 h4
    refine ⟨?_, ?_⟩ <;>
      simp [sweepList, hd, hemp, evDeleteCount_append, evSizes_append, evDeleteCount, evSizes,
        deletedFilesCount, sweptBytes, h1, h2, h3, h4]
  | case6 d pfx n af rf cs rest st hd haf c hemp ih1 ih2 =>
    have haf' : af = false := Bool.eq_false_iff.mpr haf
    subst haf'
    have hc : c = sweepList maxDepth (d + 1) (pfx ++ [n]) cs st := rfl
    rw [hc] at hemp
    obtain ⟨h1, h2⟩ := ih1
    obtain ⟨h3, h4⟩ := ih2
    rw [hc] at h3 h4
    refine ⟨?_, ?_⟩ <;>
      simp [sweepList, hd, hemp, evDeleteCount_append, evSizes_append, evDeleteCount, evSizes,
        deletedFilesCount, sweptBytes, h1, h2, h3, h4]
  | case7 d pfx n af rf cs rest st hd ih =>
    obtain ⟨h1, h2⟩ := ih
    refine ⟨?_, ?_⟩ <;>
      simp [sweepList, hd, evDeleteCount, evSizes, deletedFilesCount, sweptBytes, h1, h2]

/-- Size conservation for the V1 sweep: the bytes still on disk plus the
bytes freed add up to the bytes that were there before. -/
theorem sweepList_size_conservation (maxDepth d : Nat) (pfx : List String) (es : List Entry)
    (st : CleanupStats) :
    get_directory_size (sweepList maxDepth d pfx es st).1 + sweptBytes maxDepth d es
      = get_directory_size es := by
  induction d, pfx, es, st using sweepList.induct maxDepth with
  | case1 d pfx st => simp [sweepList, get_directory_size, sweptBytes]
  | case2 d pfx n sz lk df rest st del hok ih =>
    obtain ⟨hlk, hdf⟩ := (safe_delete_file_ok_iff sz lk df st).mp hok
    subst hlk; subst hdf
    rw [show del = safe_delete_file sz false false st from rfl] at ih
    simp [safe_delete_file, is_file_in_use] at ih
    simp [sweepList, safe_delete_file, is_file_in_use, get_directory_size, sweptBytes, ih]
    omega
  | case3 d pfx n sz lk df rest st del hok ih =>
    cases lk <;> cases df
    · exact absurd rfl hok
    case false.true =>
      rw [show del = safe_delete_file sz false true st from rfl] at ih
      simp [safe_delete_file, is_file_in_use] at ih
      simp [sweepList, safe_delete_file, is_file_in_use, get_directory_size, sweptBytes, ih]
      omega
    case true.false =>
      rw [show del = safe_delete_file sz true false st from rfl] at ih
      simp [safe_delete_file, is_file_in_use] at ih
      simp [sweepList, safe_delete_file, is_file_in_use, get_directory_size, sweptBytes, ih]
      omega
    case true.true =>
      rw [show del = safe_delete_file sz true true st from rfl] at ih
      simp [safe_delete_file, is_file_in_use] at ih
      simp [sweepList, safe_delete_file, is_file_in_use, get_directory_size, sweptBytes, ih]
      omega
  | case4 d pfx n rf cs rest st hd ih =>
    simp [sweepList, hd, get_directory_size, sweptBytes, ih]
    omega
  | case5 d pfx n af rf cs rest st hd haf c hemp ih1 ih2 =>
    have haf' : af = false := Bool.eq_false_iff.mpr haf
    subst haf'
    have hc : c = sweepList maxDepth (d + 1) (pfx ++ [n]) cs st := rfl
    rw [hc] at hemp ih2
    have hnil : (sweepList maxDepth (d + 1) (pfx ++ [n]) cs st).1 = [] := by
      have := hemp
      simp only [Bool.and_eq_true, List.isEmpty_iff] at this
      exact this.1
    have h1 := ih1
    rw [hnil] at h1
    simp [get_directory_size] at h1
    simp [sweepList, hd, hemp, get_directory_size, sweptBytes, ih2]
    omega
  | case6 d pfx n af rf cs rest st hd haf c hemp ih1 ih2 =>
    have haf' : af = false := Bool.eq_false_iff.mpr haf
    subst haf'
    have hc : c = sweepList maxDepth (d + 1) (pfx ++ [n]) cs st := rfl
    rw [hc] at hemp ih2
    simp [sweepList, hd, hemp, get_directory_size, sweptBytes, ih1, ih2]
    omega
  | case7 d pfx n af rf cs rest st hd ih =>
    simp [sweepList, hd, get_directory_size, sweptBytes, ih]
    omega

/-- A V1 sweep never deletes a locked file: the locked files of the tree,
with their names and sizes, survive the sweep unchanged and in order. -/
theorem sweepList_locked_preserved (maxDepth d : Nat) (pfx : List String) (es : List Entry)
    (st : CleanupStats) :
    lockedFilesList (sweepList maxDepth d pfx es st).1 = lockedFilesList es := by
  induction d, pfx, es, st using sweepList.induct maxDepth with
  | case1 d pfx st => simp [sweepList]
  | case2 d pfx n sz lk df rest st del hok ih =>
    obtain ⟨hlk, hdf⟩ := (safe_delete_file_ok_iff sz lk df st).mp hok
    subst hlk; subst hdf
    rw [show del = safe_delete_file sz false false st from rfl] at ih
    simp [safe_delete_file, is_file_in_use] at ih
    simp [sweepList, safe_delete_file, is_file_in_use, lockedFilesList, ih]
  | case3 d pfx n sz lk df rest st del hok ih =>
    cases lk <;> cases df
    · exact absurd rfl hok
    case false.true =>
      rw [show del = safe_delete_file sz false true st from rfl] at ih
      simp [safe_delete_file, is_file_in_use] at ih
      simp [sweepList, safe_delete_file, is_file_in_use, lockedFilesList, ih]
    case true.false =>
      rw [show del = safe_delete_file sz true false st from rfl] at ih
      simp [safe_delete_file, is_file_in_use] at ih
      simp [sweepList, safe_delete_file, is_file_in_use, lockedFilesList, ih]
    case true.true =>
      rw [show del = safe_delete_file sz true true st from rfl] at ih
      simp [safe_delete_file, is_file_in_use] at ih
      simp [sweepList, safe_delete_file, is_file_in_use, lockedFilesList, ih]
  | case4 d pfx n rf cs rest st hd ih =>
    simp [sweepList, hd, lockedFilesList, ih]
  | case5 d pfx n af rf cs rest st hd haf c hemp ih1 ih2 =>
    have haf' : af = false := Bool.eq_false_iff.mpr haf
    subst haf'
    have hc : c = sweepList maxDepth (d + 1) (pfx ++ [n]) cs st := rfl
    rw [hc] at hemp ih2
    have hnil : (sweepList maxDepth (d + 1) (pfx ++ [n]) cs st).1 = [] := by
      have := hemp
      simp only [Bool.and_eq_true, List.isEmpty_iff] at this
      exact this.1
    rw [hnil] at ih1
    simp [lockedFilesList] at ih1
    simp [sweepList, hd, hemp, lockedFilesList, ih2, ← ih1]
  | case6 d pfx n af rf cs rest st hd haf c hemp ih1 ih2 =>
    have haf' : af = false := Bool.eq_false_iff.mpr haf
    subst haf'
    have hc : c = sweepList maxDepth (d + 1) (pfx ++ [n]) cs st := rfl
    rw [hc] at hemp ih2
    simp [sweepList, hd, hemp, lockedFilesList, ih1, ih2]
  | case7 d pfx n af rf cs rest st hd ih =>
    simp [sweepList, hd, lockedFilesList, ih]

/-- At the depth limit nothing below the current directory is touched: the
sweep keeps every directory entry (subtree and all) and every event names a
direct child of the current directory. -/
theorem sweepList_at_depth_limit (maxDepth d : Nat) (pfx : List String) (es : List Entry)
    (st : CleanupStats) (h : maxDepth ≤ d) :
    dirEntries (sweepList maxDepth d pfx es st).1 = dirEntries es ∧
    ∀ ev ∈ (sweepList maxDepth d pfx es st).2.2, (Ev.path ev).length = pfx.length + 1 := by
  have hd : ¬d < maxDepth := Nat.not_lt.mpr h
  induction es generalizing st with
  | nil => simp [sweepList]
  | cons e rest ih =>
    cases e with
    | file n sz lk df =>
      by_cases hok : (safe_delete_file sz lk df st).1 = true
      · obtain ⟨hlk, hdf⟩ := (safe_delete_file_ok_iff sz lk df st).mp hok
        subst hlk; subst hdf
        refine ⟨?_, ?_⟩
        · simp only [sweepList, safe_delete_file, is_file_in_use, Bool.false_eq_true, if_false,
            if_true, dirEntries]
          exact (ih _).1
        · intro ev hev
          simp [sweepList, safe_delete_file, is_file_in_use] at hev
          rcases hev with rfl | hev
          · simp [Ev.path]
          · exact (ih _).2 ev hev
      · have hkd : lk = true ∨ df = true := by
          by_contra hcon
          push_neg at hcon
          exact hok ((safe_delete_file_ok_iff sz lk df st).mpr
            ⟨Bool.eq_false_iff.mpr (fun hh => hcon.1 hh), Bool.eq_false_iff.mpr (fun hh => hcon.2 hh)⟩)
        refine ⟨?_, ?_⟩
        · cases lk <;> cases df
          · simp at hkd
          all_goals
            simp only [sweepList, safe_delete_file, is_file_in_use, Bool.false_eq_true, if_false,
              if_true, dirEntries]
          all_goals exact (ih _).1
        · intro ev hev
          cases lk <;> cases df
          · simp at hkd
          all_goals
            simp [sweepList, safe_delete_file, is_file_in_use] at hev
          all_goals exact (ih _).2 ev hev
    | dir n af rf cs =>
      refine ⟨?_, ?_⟩
      · simp only [sweepList, if_neg hd, dirEntries]
        rw [(ih _).1]
      · intro ev hev
        simp only [sweepList, if_neg hd] at hev
        exact (ih _).2 ev hev

/-- Every event of a sweep lives strictly below the directory being swept
and its first step is the name of one of the listed entries. -/
theorem sweepList_event_scope (maxDepth d : Nat) (pfx : List String) (es : List Entry)
    (st : CleanupStats) :
    ∀ ev ∈ (sweepList maxDepth d pfx es st).2.2,
      ∃ m r, Ev.path ev = pfx ++ m :: r ∧ m ∈ es.map Entry.name := by
  induction d, pfx, es, st using sweepList.induct maxDepth with
  | case1 d pfx st => simp [sweepList]
  | case2 d pfx n sz lk df rest st del hok ih =>
    obtain ⟨hlk, hdf⟩ := (safe_delete_file_ok_iff sz lk df st).mp hok
    subst hlk; subst hdf
    intro ev hev
    simp [sweepList, safe_delete_file, is_file_in_use] at hev
    rcases hev with rfl | hev
    · exact ⟨n, [], rfl, by rw [List.map_cons]; exact List.mem_cons_self _ _⟩
    · obtain ⟨m, r, hp, hm⟩ := ih ev hev
      exact ⟨m, r, hp, by rw [List.map_cons]; exact List.mem_cons_of_mem _ hm⟩
  | case3 d pfx n sz lk df rest st del hok ih =>
    intro ev hev
    have hev' : ev ∈ (sweepList maxDepth d pfx rest del.2).2.2 := by
      cases lk <;> cases df
      · exact absurd rfl hok
      all_goals simpa [sweepList, safe_delete_file, is_file_in_use] using hev
    obtain ⟨m, r, hp, hm⟩ := ih ev hev'
    exact ⟨m, r, hp, by rw [List.map_cons]; exact List.mem_cons_of_mem _ hm⟩
  | case4 d pfx n rf cs rest st hd ih =>
    intro ev hev
    simp [sweepList, hd] at hev
    obtain ⟨m, r, hp, hm⟩ := ih ev hev
    exact ⟨m, r, hp, by rw [List.map_cons]; exact List.mem_cons_of_mem _ hm⟩
  | case5 d pfx n af rf cs rest st hd haf c hemp ih1 ih2 =>
    have haf' : af = false := Bool.eq_false_iff.mpr haf
    subst haf'
    have hc : c = sweepList maxDepth (d + 1) (pfx ++ [n]) cs st := rfl
    rw [hc] at hemp ih2
    intro ev hev
    simp [sweepList, hd, hemp] at hev
    rcases hev with hev | rfl | hev
    · obtain ⟨m, r, hp, _⟩ := ih1 ev hev
      refine ⟨n, m :: r, ?_, by rw [List.map_cons]; exact List.mem_cons_self _ _⟩
      rw [hp]; simp
    · exact ⟨n, [], rfl, by rw [List.map_cons]; exact List.mem_cons_self _ _⟩
    · obtain ⟨m, r, hp, hm⟩ := ih2 ev hev
      exact ⟨m, r, hp, by rw [List.map_cons]; exact List.mem_cons_of_mem _ hm⟩
  | case6 d pfx n af rf cs rest st hd haf c hemp ih1 ih2 =>
    have haf' : af = false := Bool.eq_false_iff.mpr haf
    subst haf'
    have hc : c = sweepList maxDepth (d + 1) (pfx ++ [n]) cs st := rfl
    rw [hc] at hemp ih2
    intro ev hev
    simp [sweepList, hd, hemp] at hev
    rcases hev with hev | hev
    · obtain ⟨m, r, hp, _⟩ := ih1 ev hev
      refine ⟨n, m :: r, ?_, by rw [List.map_cons]; exact List.mem_cons_self _ _⟩
      rw [hp]; simp
    · obtain ⟨m, r, hp, hm⟩ := ih2 ev hev
      exact ⟨m, r, hp, by rw [List.map_cons]; exact List.mem_cons_of_mem _ hm⟩
  | case7 d pfx n af rf cs rest st hd ih =>
    intro ev hev
    simp [sweepList, hd] at hev
    obtain ⟨m, r, hp, hm⟩ := ih ev hev
    exact ⟨m, r, hp, by rw [List.map_cons]; exact List.mem_cons_of_mem _ hm⟩

theorem split_middle {α : Type} (a b l1 l2 : List α) (x : α) (h : a ++ b = l1 ++ x :: l2) :
    (∃ t, a = l1 ++ x :: t ∧ l2 = t ++ b) ∨ (∃ t, l1 = a ++ t ∧ b = t ++ x :: l2) := by
  induction l1 generalizing a with
  | nil =>
    cases a with
    | nil => right; exact ⟨[], rfl, by simpa using h⟩
    | cons y a' =>
      simp at h
      obtain ⟨hy, ha⟩ := h
      subst hy
      left; exact ⟨a', by simp [ha.symm], ha.symm⟩
  | cons y l1' ih =>
    cases a with
    | nil =>
      right
      refine ⟨y :: l1', rfl, ?_⟩
      simpa using h
    | cons z a' =>
      simp at h
      obtain ⟨hz, ha⟩ := h
      subst hz
      rcases ih a' ha with ⟨t, h1, h2⟩ | ⟨t, h1, h2⟩
      · left; exact ⟨t, by simp [h1], h2⟩
      · right; exact ⟨t, by simp [h1], h2⟩

/-- The length of a path strictly below `p` exceeds the length of `p`. -/
theorem strictlyBelow_length {p q : List String} (h : strictlyBelow p q) :
    p.length < q.length := by
  obtain ⟨n, r, rfl⟩ := h
  simp

/-- Post-order removal, stated on the event trace: once the sweep removes a
directory, no later event touches anything strictly below that directory —
all of its children were processed before the `rmdir`.  Requires sibling
names to be distinct, as they are in a real directory listing. -/
theorem sweepList_postorder (maxDepth d : Nat) (pfx : List String) (es : List Entry)
    (st : CleanupStats) (hnd : (es.map Entry.name).Nodup) (hwf : wfSiblings es) :
    ∀ l1 p l2, (sweepList maxDepth d pfx es st).2.2 = l1 ++ Ev.rmdir p :: l2 →
      ∀ ev ∈ l2, ¬ strictlyBelow p (Ev.path ev) := by
  induction d, pfx, es, st using sweepList.induct maxDepth with
  | case1 d pfx st =>
    intro l1 p l2 h
    simp [sweepList] at h
  | case2 d pfx n sz lk df rest st del hok ih =>
    obtain ⟨hlk, hdf⟩ := (safe_delete_file_ok_iff sz lk df st).mp hok
    subst hlk; subst hdf
    simp only [wfSiblings] at hwf
    rw [List.map_cons] at hnd
    intro l1 p l2 h
    simp only [sweepList, safe_delete_file, is_file_in_use, Bool.false_eq_true, if_false,
      if_true] at h
    cases l1 with
    | nil => simp at h
    | cons e l1' =>
      simp only [List.cons_append, List.cons.injEq] at h
      exact ih hnd.of_cons hwf l1' p l2 h.2
  | case3 d pfx n sz lk df rest st del hok ih =>
    simp only [wfSiblings] at hwf
    rw [List.map_cons] at hnd
    intro l1 p l2 h
    have h' : (sweepList maxDepth d pfx rest del.2).2.2 = l1 ++ Ev.rmdir p :: l2 := by
      cases lk <;> cases df
      · exact absurd rfl hok
      all_goals simpa [sweepList, safe_delete_file, is_file_in_use] using h
    exact ih hnd.of_cons hwf l1 p l2 h'
  | case4 d pfx n rf cs rest st hd ih =>
    simp only [wfSiblings] at hwf
    rw [List.map_cons] at hnd
    intro l1 p l2 h
    simp only [sweepList, if_pos hd, if_true] at h
    exact ih hnd.of_cons hwf.2 l1 p l2 h
  | case7 d pfx n af rf cs rest st hd ih =>
    simp only [wfSiblings] at hwf
    rw [List.map_cons] at hnd
    intro l1 p l2 h
    simp only [sweepList, if_neg hd] at h
    exact ih hnd.of_cons hwf.2 l1 p l2 h
  | case5 d pfx n af rf cs rest st hd haf c hemp ih1 ih2 =>
    have haf' : af = false := Bool.eq_false_iff.mpr haf
    subst haf'
    have hc : c = sweepList maxDepth (d + 1) (pfx ++ [n]) cs st := rfl
    try rw [hc] at hemp
    try rw [hc] at ih2
    simp only [wfSiblings] at hwf
    rw [List.map_cons] at hnd
    have hnd' : (rest.map Entry.name).Nodup := hnd.of_cons
    have hnmem : n ∉ rest.map Entry.name := (List.nodup_cons.mp hnd).1
    have hrestscope : ∀ s : CleanupStats, ∀ ev ∈ (sweepList maxDepth d pfx rest s).2.2,
        ∃ m r, Ev.path ev = pfx ++ m :: r ∧ m ≠ n := by
      intro s ev hev
      obtain ⟨m, r, hp, hm⟩ := sweepList_event_scope maxDepth d pfx rest s ev hev
      exact ⟨m, r, hp, fun hmn => hnmem (hmn ▸ hm)⟩
    intro l1 p l2 h
    simp only [sweepList, if_pos hd, Bool.false_eq_true, if_false, if_pos hemp] at h
    try rw [hc] at h
    rcases split_middle _ _ _ _ _ h with ⟨t, h1, h2⟩ | ⟨t, h1, h2⟩
    · have hpmem : Ev.rmdir p ∈ (sweepList maxDepth (d + 1) (pfx ++ [n]) cs st).2.2 := by
        rw [h1]; exact List.mem_append.mpr (Or.inr (List.mem_cons_self _ _))
      obtain ⟨m, r, hp, _⟩ := sweepList_event_scope maxDepth (d + 1) (pfx ++ [n]) cs st _ hpmem
      have hpp : Ev.path (Ev.rmdir p) = p := rfl
      rw [hpp] at hp
      have hplen : pfx.length + 2 ≤ p.length := by rw [hp]; simp
      intro ev hev
      rw [h2] at hev
      rcases List.mem_append.mp hev with hev | hev
      · exact ih1 hwf.1.1 hwf.1.2 l1 p t h1 ev hev
      · rcases List.mem_cons.mp hev with rfl | hev
        · intro hsb
          have hlen := strictlyBelow_length hsb
          have hlen2 : (Ev.path (Ev.rmdir (pfx ++ [n]))).length = pfx.length + 1 := by
            simp [Ev.path]
          omega
        · obtain ⟨m', r', hp', hm'⟩ := hrestscope _ ev hev
          intro hsb
          obtain ⟨u, v, huv⟩ := hsb
          rw [hp', hp] at huv
          simp only [List.append_assoc, List.singleton_append, List.append_cancel_left_eq] at huv
          exact hm' (by injection huv)
    · cases t with
      | nil =>
        simp only [List.nil_append, List.cons.injEq] at h2
        obtain ⟨hpn, hl2⟩ := h2
        have hpn' : p = pfx ++ [n] := by injection hpn with hh; exact hh.symm
        subst hpn'
        intro ev hev
        rw [← hl2] at hev
        obtain ⟨m', r', hp', hm'⟩ := hrestscope _ ev hev
        intro hsb
        obtain ⟨u, v, huv⟩ := hsb
        rw [hp'] at huv
        simp only [List.append_assoc, List.singleton_append, List.append_cancel_left_eq] at huv
        exact hm' (by injection huv)
      | cons e t' =>
        simp only [List.cons_append, List.cons.injEq] at h2
        exact ih2 hnd' hwf.2 t' p l2 h2.2
  | case6 d pfx n af rf cs rest st hd haf c hemp ih1 ih2 =>
    have haf' : af = false := Bool.eq_false_iff.mpr haf
    subst haf'
    have hc : c = sweepList maxDepth (d + 1) (pfx ++ [n]) cs st := rfl
    try rw [hc] at hemp
    try rw [hc] at ih2
    simp only [wfSiblings] at hwf
    rw [List.map_cons] at hnd
    have hnd' : (rest.map Entry.name).Nodup := hnd.of_cons
    have hnmem : n ∉ rest.map Entry.name := (List.nodup_cons.mp hnd).1
    have hrestscope : ∀ s : CleanupStats, ∀ ev ∈ (sweepList maxDepth d pfx rest s).2.2,
        ∃ m r, Ev.path ev = pfx ++ m :: r ∧ m ≠ n := by
      intro s ev hev
      obtain ⟨m, r, hp, hm⟩ := sweepList_event_scope maxDepth d pfx rest s ev hev
      exact ⟨m, r, hp, fun hmn => hnmem (hmn ▸ hm)⟩
    intro l1 p l2 h
    simp only [sweepList, if_pos hd, Bool.false_eq_true, if_false, if_neg hemp] at h
    try rw [hc] at h
    rcases split_middle _ _ _ _ _ h with ⟨t, h1, h2⟩ | ⟨t, h1, h2⟩
    · have hpmem : Ev.rmdir p ∈ (sweepList maxDepth (d + 1) (pfx ++ [n]) cs st).2.2 := by
        rw [h1]; exact List.mem_append.mpr (Or.inr (List.mem_cons_self _ _))
      obtain ⟨m, r, hp, _⟩ := sweepList_event_scope maxDepth (d + 1) (pfx ++ [n]) cs st _ hpmem
      have hpp : Ev.path (Ev.rmdir p) = p := rfl
      rw [hpp] at hp
      intro ev hev
      rw [h2] at hev
      rcases List.mem_append.mp hev with hev | hev
      · exact ih1 hwf.1.1 hwf.1.2 l1 p t h1 ev hev
      · obtain ⟨m', r', hp', hm'⟩ := hrestscope _ ev hev
        intro hsb
        obtain ⟨u, v, huv⟩ := hsb
        rw [hp', hp] at huv
        simp only [List.append_assoc, List.singleton_append, List.append_cancel_left_eq] at huv
        exact hm' (by injection huv)
    · exact ih2 hnd' hwf.2 t p l2 h2

/-- Whether the removal of an emptied directory succeeds or raises has no
effect on any counter: the `rmdir` failure is swallowed without touching
`errors_encountered` (or anything else). -/
theorem sweepList_rmdir_failure_silent (maxDepth d : Nat) (pfx : List String) (n : String)
    (af : Bool) (cs rest : List Entry) (st : CleanupStats) (rf1 rf2 : Bool) :
    (sweepList maxDepth d pfx (Entry.dir n af rf1 cs :: rest) st).2.1
      = (sweepList maxDepth d pfx (Entry.dir n af rf2 cs :: rest) st).2.1 := by
  by_cases hd : d < maxDepth
  · cases af
    · simp only [sweepList, if_pos hd, Bool.false_eq_true, if_false]
      split_ifs <;> rfl
    · simp only [sweepList, if_pos hd, if_true]
  · simp only [sweepList, if_neg hd]

/-- The V2 per-file loop: every file is counted as processed, survivors are
exactly the files whose `os.remove` raises, and the deleted/error counters
split the files accordingly. -/
theorem v2_process_files_char (fs : List V2File) (st : V2Stats) :
    (v2_process_files fs st).1 = fs.filter (fun f => f.removeFails) ∧
    (v2_process_files fs st).2.files_processed = st.files_processed + fs.length ∧
    (v2_process_files fs st).2.files_deleted
      = st.files_deleted + (fs.filter (fun f => !f.removeFails)).length ∧
    (v2_process_files fs st).2.errors_encountered
      = st.errors_encountered + (fs.filter (fun f => f.removeFails)).length := by
  induction fs generalizing st with
  | nil => simp [v2_process_files]
  | cons f fs ih =>
    obtain ⟨h1, h2, h3, h4⟩ := ih (if f.removeFails then
      { st with files_processed := st.files_processed + 1,
                errors_encountered := st.errors_encountered + 1 }
      else { st with files_processed := st.files_processed + 1,
                     files_deleted := st.files_deleted + 1,
                     space_freed := st.space_freed + f.size })
    cases hrf : f.removeFails <;>
      · rw [hrf] at h1 h2 h3 h4
        simp only [if_true, if_false, Bool.false_eq_true] at h1 h2 h3 h4
        refine ⟨?_, ?_, ?_, ?_⟩ <;>
          simp [v2_process_files, hrf, List.filter, h1, h2, h3, h4] <;>
          omega

/-- `files_deleted` never exceeds `files_processed` across the V2 per-dir
loop, threading counters. -/
theorem v2_clean_path_le (p : String) (ds : List V2TempDir) (st : V2Stats)
    (h : st.files_deleted ≤ st.files_processed) :
    (v2_clean_path p ds st).2.files_deleted ≤ (v2_clean_path p ds st).2.files_processed := by
  induction ds generalizing st with
  | nil => simpa [v2_clean_path] using h
  | cons d ds ih =>
    by_cases hn : d.name = p
    · simp only [v2_clean_path, hn, if_pos rfl]
      apply ih
      obtain ⟨_, h2, h3, _⟩ := v2_process_files_char d.files st
      rw [h2, h3]
      have := List.length_filter_le (fun f => !f.removeFails) d.files
      omega
    · simp only [v2_clean_path, if_neg hn]
      exact ih st h

/-- The V2 per-dir loop walks each root once; on a root whose name matches,
the walk processes its current files and leaves only the failing ones. -/
theorem v2_clean_path_single (p : String) (fl : List V2File) (st : V2Stats) :
    v2_clean_path p [⟨p, fl⟩] st
      = ([⟨p, (v2_process_files fl st).1⟩], (v2_process_files fl st).2) := by
  simp [v2_clean_path]

/-- The V2 sweep aggregate keeps `files_deleted ≤ files_processed`. -/
theorem cleanup_temp_files_v2_le (ps : List String) (fs : List V2TempDir) :
    (cleanup_temp_files_v2 ps fs).1.files_deleted
      ≤ (cleanup_temp_files_v2 ps fs).1.files_processed := by
  induction ps generalizing fs with
  | nil => simp [cleanup_temp_files_v2]
  | cons p ps ih =>
    simp only [cleanup_temp_files_v2]
    have h1 := v2_clean_path_le p fs ⟨0, 0, 0, 0⟩ (by simp)
    have h2 := ih ((v2_clean_path p fs ⟨0, 0, 0, 0⟩).1)
    omega

/-- V1 `clean_temp_files` on paths none of which exists: nothing is swept,
nothing is counted, no error or flag of any kind is produced — the filtered
directory list is empty and the counters and the filesystem are untouched. -/
theorem clean_temp_files_missing_roots (paths : List String) (roots : List V1Root)
    (st : CleanupStats) (h : ∀ p ∈ paths, ∀ r ∈ roots, ¬ r.name = p) :
    clean_temp_files paths roots st
      = ({ files_deleted := 0, size_freed_mb := 0, directories_processed := 0 }, roots, st) := by
  have hdirs : paths.dedup.filter (fun p => roots.any fun r => r.name = p) = [] := by
    rw [List.filter_eq_nil_iff]
    intro p hp
    simp only [List.any_eq_true, decide_eq_true_eq]
    rintro ⟨r, hr, hname⟩
    exact h p (List.mem_dedup.mp hp) r hr hname
  simp [clean_temp_files, hdirs, clean_roots]

/-- V1 `clean_temp_files` deduplicates by path value: a path listed twice
behaves exactly as a path listed once. -/
theorem clean_temp_files_dedup (p : String) (ps : List String) (roots : List V1Root)
    (st : CleanupStats) :
    clean_temp_files (p :: p :: ps) roots st = clean_temp_files (p :: ps) roots st := by
  unfold clean_temp_files
  rw [List.dedup_cons_of_mem (List.mem_cons_self p ps)]

/-- The cache-directory top loop leaves behind exactly what
`shutil.rmtree(..., ignore_errors=True)` would leave on the whole listing:
locked or undeletable files, unreadable subtrees, and emptied directories
whose `rmdir` failed. -/
theorem remove_cache_contents_residual (es : List Entry) :
    (remove_cache_contents es).1 = rmtree_ignore_errors es := by
  induction es with
  | nil => simp [remove_cache_contents, rmtree_ignore_errors]
  | cons e rest ih =>
    cases e with
    | file n sz lk df =>
      cases hlf : (lk || df) <;>
        simp [remove_cache_contents, rmtree_ignore_errors, hlf, ih]
    | dir n af rf cs =>
      cases af <;>
        simp [remove_cache_contents, rmtree_ignore_errors, ih]

/-- Size conservation for `rmtree`: what survives plus what was removed is
what was there. -/
theorem rmtree_conservation (es : List Entry) :
    get_directory_size (rmtree_ignore_errors es) + rmtreeRemovedBytes es
      = get_directory_size es := by
  induction es using rmtree_ignore_errors.induct with
  | case1 => simp [rmtree_ignore_errors, rmtreeRemovedBytes, get_directory_size]
  | case2 n sz lk df rest ih =>
    cases hlf : (lk || df) <;>
      · simp [rmtree_ignore_errors, rmtreeRemovedBytes, get_directory_size, hlf, ih]
        omega
  | case3 n af rf cs rest ih1 ih2 =>
    cases af
    · by_cases hemp : ((rmtree_ignore_errors cs).isEmpty && !rf) = true
      · have hnil : rmtree_ignore_errors cs = [] := by
          simp only [Bool.and_eq_true, List.isEmpty_iff] at hemp
          exact hemp.1
        rw [hnil] at ih1
        simp [get_directory_size] at ih1
        simp [rmtree_ignore_errors, rmtreeRemovedBytes, get_directory_size, hemp, ← ih1, ih2]
        omega
      · simp [rmtree_ignore_errors, rmtreeRemovedBytes, get_directory_size, hemp, ih2]
        omega
    · simp [rmtree_ignore_errors, rmtreeRemovedBytes, get_directory_size, ih2]
      omega

/-- The `size_freed` reported by `safe_remove_cache_directory` on a readable
cache path — computed in the source as directory size before minus after —
equals the exact sum of the sizes of the files the removal actually deleted. -/
theorem safe_remove_cache_directory_size (c : CacheDir) (haf : c.accessFails = false) :
    (safe_remove_cache_directory (some c)).1.2 = rmtreeRemovedBytes c.children := by
  simp only [safe_remove_cache_directory, haf, Bool.false_eq_true, if_false,
    remove_cache_contents_residual]
  have := rmtree_conservation c.children
  omega

/-- Adjacent-pair check that a percentage sequence never decreases. -/
def nonDecreasing : List Nat → Bool
  | [] => true
  | [_] => true
  | a :: b :: rest => a ≤ b && nonDecreasing (b :: rest)

/-- `nonDecreasing` is exactly the chain of `≤` over adjacent elements. -/
theorem nonDecreasing_iff_chain (l : List Nat) :
    nonDecreasing l = true ↔ List.Chain' (· ≤ ·) l := by
  induction l with
  | nil => simp [nonDecreasing]
  | cons a l ih =>
    cases l with
    | nil => simp [nonDecreasing]
    | cons b rest =>
      simp [nonDecreasing, List.chain'_cons, ih]

/-- C1: for every file the sweep deletes, the byte count added to the
freed-space total is the file's size captured before the delete call
(each `Ev.deleted` event carries that size), and the total equals the exact
sum of the sizes of exactly the files counted as deleted — for the V1 temp
sweep (counter = incoming + event sizes, matched by on-disk conservation)
and for the browser cache removal, whose before/after directory-size
difference provably equals the sum of the sizes of the files removed. -/
theorem claim_C1_bytes_freed_exact :
    (∀ (maxDepth d : Nat) (pfx : List String) (es : List Entry) (st : CleanupStats),
      (sweepList maxDepth d pfx es st).2.1.temp_size_freed
          = st.temp_size_freed + evSizes (sweepList maxDepth d pfx es st).2.2 ∧
      (sweepList maxDepth d pfx es st).2.1.temp_files_deleted
          = st.temp_files_deleted + evDeleteCount (sweepList maxDepth d pfx es st).2.2 ∧
      get_directory_size (sweepList maxDepth d pfx es st).1
          + evSizes (sweepList maxDepth d pfx es st).2.2 = get_directory_size es) ∧
    (∀ children : List Entry,
      (safe_remove_cache_directory (some ⟨false, children⟩)).1.2
        = rmtreeRemovedBytes children) := by
  constructor
  · intro maxDepth d pfx es st
    obtain ⟨ha, hb, _⟩ := sweepList_stats_char maxDepth d pfx es st
    obtain ⟨hc, hd⟩ := sweepList_events_char maxDepth d pfx es st
    have he := sweepList_size_conservation maxDepth d pfx es st
    refine ⟨?_, ?_, ?_⟩ <;> omega
  · intro children
    exact safe_remove_cache_directory_size ⟨false, children⟩ rfl

/-- C2 (counterexample): a locked file is left untouched but the errors
counter is NOT incremented: sweeping a directory holding exactly one locked
file leaves the file in place and every counter — `errors_encountered`
included — unchanged, contradicting the claim that a locked file is counted
in `errors`. -/
theorem claim_C2_counterexample :
    (sweepList 3 0 [] [Entry.file "f" 10 true false] ⟨0, 0, 0⟩).1
      = [Entry.file "f" 10 true false] ∧
    (sweepList 3 0 [] [Entry.file "f" 10 true false] ⟨0, 0, 0⟩).2.1 = ⟨0, 0, 0⟩ := by
  refine ⟨?_, ?_⟩ <;> simp [sweepList, safe_delete_file, is_file_in_use]

/-- C2 (amended): every file that `is_file_in_use` reports as locked is left
undeleted (the locked files survive the sweep exactly), and it is not counted
in the deleted-files counter; but the errors counter is left unchanged by
locked files — it counts only failing `stat`/`unlink` calls on unlocked
files and failing directory listings (`deletedFilesCount` and
`visitedFailures` both exclude locked files by definition). -/
theorem claim_C2_locked_skipped_amended (maxDepth d : Nat) (pfx : List String)
    (es : List Entry) (st : CleanupStats) :
    lockedFilesList (sweepList maxDepth d pfx es st).1 = lockedFilesList es ∧
    (sweepList maxDepth d pfx es st).2.1.temp_files_deleted
      = st.temp_files_deleted + deletedFilesCount maxDepth d es ∧
    (sweepList maxDepth d pfx es st).2.1.errors_encountered
      = st.errors_encountered + visitedFailures maxDepth d es :=
  ⟨sweepList_locked_preserved maxDepth d pfx es st,
   (sweepList_stats_char maxDepth d pfx es st).1,
   (sweepList_stats_char maxDepth d pfx es st).2.2⟩

/-- C3: after every V2 temp sweep, over any directory list and any pattern of
per-file remove failures, `files_deleted ≤ files_processed`. -/
theorem claim_C3_deleted_le_processed (ps : List String) (fs : List V2TempDir) :
    (cleanup_temp_files_v2 ps fs).1.files_deleted
      ≤ (cleanup_temp_files_v2 ps fs).1.files_processed :=
  cleanup_temp_files_v2_le ps fs

/-- C4 (counterexample): sweeping a non-existent root produces a zero-effect
result with NO error indicator of any kind: every field of the result is
zero, the shared counters (`errors_encountered` included) are unchanged, and
no `RootUnavailable` flag exists — in both the V1 and the V2 sweep. -/
theorem claim_C4_counterexample :
    clean_temp_files ["C:/Windows/Temp"] [] ⟨0, 0, 0⟩
      = ({ files_deleted := 0, size_freed_mb := 0, directories_processed := 0 },
         [], ⟨0, 0, 0⟩) ∧
    cleanup_temp_files_v2 ["C:/Windows/Temp"] [] = (⟨0, 0, 0, 0⟩, []) := by
  constructor
  · simp [clean_temp_files, clean_roots, List.dedup]
  · simp [cleanup_temp_files_v2, v2_clean_path]

/-- C4 (amended): calling the V1 sweep when none of the candidate paths
exists as a directory returns a result whose every field is zero and does
not raise — but silently: no `RootUnavailable` (or any other) error
indicator is produced; the missing roots are filtered out, the counters and
the filesystem are untouched. -/
theorem claim_C4_root_unavailable_amended (paths : List String) (roots : List V1Root)
    (st : CleanupStats) (h : ∀ p ∈ paths, ∀ r ∈ roots, ¬ r.name = p) :
    clean_temp_files paths roots st
      = ({ files_deleted := 0, size_freed_mb := 0, directories_processed := 0 },
         roots, st) :=
  clean_temp_files_missing_roots paths roots st h

/-- C4 (witness): the amended theorem applied to a concrete missing root. -/
theorem claim_C4_witness :
    (∀ p ∈ ["C:/Windows/Temp"], ∀ r ∈ ([] : List V1Root), ¬ r.name = p) ∧
    clean_temp_files ["C:/Windows/Temp"] [] ⟨0, 0, 0⟩
      = ({ files_deleted := 0, size_freed_mb := 0, directories_processed := 0 },
         [], ⟨0, 0, 0⟩) :=
  ⟨by simp, claim_C4_root_unavailable_amended ["C:/Windows/Temp"] [] ⟨0, 0, 0⟩ (by simp)⟩

/-- Evaluating the V2 sweep on a root listed twice: the second walk processes
exactly the files that survived the first. -/
theorem cleanup_v2_double (name : String) (fl : List V2File) :
    (cleanup_temp_files_v2 [name, name] [⟨name, fl⟩]).1.files_processed
      = fl.length + (fl.filter (fun f => f.removeFails)).length := by
  obtain ⟨ha1, ha2, _, _⟩ := v2_process_files_char fl ⟨0, 0, 0, 0⟩
  obtain ⟨_, hb2, _, _⟩ := v2_process_files_char (fl.filter (fun f => f.removeFails)) ⟨0, 0, 0, 0⟩
  simp only [cleanup_temp_files_v2, v2_clean_path_single, ha1, ha2, hb2]
  simp

/-- C5 (counterexample): the V2 sweep does not deduplicate identical root
paths — the same directory holding one undeletable file is walked twice and
its file is counted twice, so the aggregate `files_processed` (2) differs
from a single-target sweep's count (1), contradicting the claim for
`V2CleanupEngine._cleanup_temp_files`. -/
theorem claim_C5_counterexample :
    (cleanup_temp_files_v2 ["T", "T"] [⟨"T", [⟨10, true⟩]⟩]).1.files_processed = 2 ∧
    (cleanup_temp_files_v2 ["T"] [⟨"T", [⟨10, true⟩]⟩]).1.files_processed = 1 ∧
    (cleanup_temp_files_v2 ["T", "T"] [⟨"T", [⟨10, true⟩]⟩]).1.files_processed
      ≠ (cleanup_temp_files_v2 ["T"] [⟨"T", [⟨10, true⟩]⟩]).1.files_processed := by
    refine ⟨?_, ?_, ?_⟩ <;> simp [cleanup_temp_files_v2, v2_clean_path, v2_process_files]

/-- C5 (amended): the V1 sweep deduplicates targets by path value — a path
listed twice behaves exactly as a path listed once — but the V2 sweep
performs no deduplication: a root listed twice is walked twice, and the
files that survive the first walk (the undeletable ones) are counted into
`files_processed` a second time. -/
theorem claim_C5_dedup_amended :
    (∀ (p : String) (ps : List String) (roots : List V1Root) (st : CleanupStats),
      clean_temp_files (p :: p :: ps) roots st = clean_temp_files (p :: ps) roots st) ∧
    (∀ (name : String) (fl : List V2File),
      (cleanup_temp_files_v2 [name, name] [⟨name, fl⟩]).1.files_processed
        = fl.length + (fl.filter (fun f => f.removeFails)).length) :=
  ⟨clean_temp_files_dedup, cleanup_v2_double⟩

/-- C6 (counterexample): the progress percentages of one successful
`perform_one_click_cleanup` run are 5, 0, 25, 35, 45, 55, 65, 75, 85, 0,
95, 100 — `capture_system_state` emits 0 in the middle of the run (after 5
and again after 85), so the sequence handed to the progress callback is not
non-decreasing. -/
theorem claim_C6_counterexample :
    one_click_progress = [5, 0, 25, 35, 45, 55, 65, 75, 85, 0, 95, 100] ∧
    ¬ List.Chain' (· ≤ ·) one_click_progress := by
  refine ⟨rfl, ?_⟩
  rw [← nonDecreasing_iff_chain]
  decide

/-- C6 (amended): the progress sequence of one successful run is exactly
5, 0, 25, 35, 45, 55, 65, 75, 85, 0, 95, 100; the two 0 emissions come from
the `capture_system_state` calls, and with those removed the remaining
percentages are non-decreasing. -/
theorem claim_C6_progress_amended :
    one_click_progress = [5, 0, 25, 35, 45, 55, 65, 75, 85, 0, 95, 100] ∧
    capture_system_state_progress = [0] ∧
    List.Chain' (· ≤ ·) (one_click_progress.filter (fun x => x ≠ 0)) := by
  refine ⟨rfl, rfl, ?_⟩
  rw [← nonDecreasing_iff_chain]
  decide

/-- C7: with `max_depth = 0` the sweep touches only the direct children of
the root: every directory entry of the root listing survives with its whole
subtree unchanged (so every file inside a subdirectory is untouched, and no
directory at depth `max_depth` is descended into), and every event of the
sweep names a path of length exactly one below the root. -/
theorem claim_C7_depth_zero (pfx : List String) (es : List Entry) (st : CleanupStats) :
    dirEntries (sweepList 0 0 pfx es st).1 = dirEntries es ∧
    ∀ ev ∈ (sweepList 0 0 pfx es st).2.2, (Ev.path ev).length = pfx.length + 1 :=
  sweepList_at_depth_limit 0 0 pfx es st (Nat.le_refl 0)

/-- C8: every per-file failure is absorbed locally: the errors counter after
a sweep is the incoming count plus exactly one per failing `stat`/`unlink`
on an unlocked file and per failing directory listing (`visitedFailures`),
and a file whose deletion raises does not stop the sweep — the entries after
it are swept exactly as they would be without it (same survivors, same
events) with exactly one extra error counted.  The sweep is a total
function: no per-file error escapes it. -/
theorem claim_C8_per_file_errors_absorbed (maxDepth d : Nat) (pfx : List String)
    (es : List Entry) (st : CleanupStats) :
    ((sweepList maxDepth d pfx es st).2.1.errors_encountered
        = st.errors_encountered + visitedFailures maxDepth d es) ∧
    ∀ (n : String) (sz : Nat) (rest : List Entry),
      (sweepList maxDepth d pfx (Entry.file n sz false true :: rest) st).1
        = Entry.file n sz false true :: (sweepList maxDepth d pfx rest st).1 ∧
      (sweepList maxDepth d pfx (Entry.file n sz false true :: rest) st).2.2
        = (sweepList maxDepth d pfx rest st).2.2 ∧
      (sweepList maxDepth d pfx (Entry.file n sz false true :: rest) st).2.1.errors_encountered
        = (sweepList maxDepth d pfx rest st).2.1.errors_encountered + 1 := by
  refine ⟨(sweepList_stats_char maxDepth d pfx es st).2.2, ?_⟩
  intro n sz rest
  have hind := sweepList_state_indep maxDepth d pfx rest
    { st with errors_encountered := st.errors_encountered + 1 } st
  have hbad := (sweepList_stats_char maxDepth d pfx (Entry.file n sz false true :: rest) st).2.2
  have hrest := (sweepList_stats_char maxDepth d pfx rest st).2.2
  have hcount : visitedFailures maxDepth d (Entry.file n sz false true :: rest)
      = 1 + visitedFailures maxDepth d rest := by
    simp [visitedFailures]
  refine ⟨?_, ?_, ?_⟩
  · simp only [sweepList, safe_delete_file, is_file_in_use, Bool.false_eq_true, if_false,
      if_true]
    exact congrArg _ hind.1
  · simp only [sweepList, safe_delete_file, is_file_in_use, Bool.false_eq_true, if_false,
      if_true]
    exact hind.2
  · omega

/-- C9: directory removal is post-order and its failure is silent: once the
event trace of a sweep contains the `rmdir` of a directory, no later event
touches anything strictly below that directory (all its children were
processed before), and whether the `rmdir` raises or succeeds changes no
counter — the failure is swallowed without being counted as an error.
Sibling names are assumed distinct, as in a real directory listing. -/
theorem claim_C9_postorder_removal (maxDepth d : Nat) (pfx : List String)
    (es : List Entry) (st : CleanupStats) (hnd : (es.map Entry.name).Nodup)
    (hwf : wfSiblings es) :
    (∀ l1 p l2, (sweepList maxDepth d pfx es st).2.2 = l1 ++ Ev.rmdir p :: l2 →
        ∀ ev ∈ l2, ¬ strictlyBelow p (Ev.path ev)) ∧
    (∀ (n : String) (af : Bool) (cs rest : List Entry) (rf1 rf2 : Bool),
        (sweepList maxDepth d pfx (Entry.dir n af rf1 cs :: rest) st).2.1
          = (sweepList maxDepth d pfx (Entry.dir n af rf2 cs :: rest) st).2.1) :=
  ⟨sweepList_postorder maxDepth d pfx es st hnd hwf,
   fun n af cs rest rf1 rf2 =>
     sweepList_rmdir_failure_silent maxDepth d pfx n af cs rest st rf1 rf2⟩

/-- C9 (witness): the post-order theorem applied to a concrete tree — one
directory holding one deletable file — whose sibling names are distinct. -/
theorem claim_C9_witness :
    (([Entry.dir "d" false false [Entry.file "a" 5 false false]].map Entry.name).Nodup ∧
     wfSiblings [Entry.dir "d" false false [Entry.file "a" 5 false false]]) ∧
    ((∀ l1 p l2,
        (sweepList 3 0 [] [Entry.dir "d" false false [Entry.file "a" 5 false false]]
            ⟨0, 0, 0⟩).2.2 = l1 ++ Ev.rmdir p :: l2 →
        ∀ ev ∈ l2, ¬ strictlyBelow p (Ev.path ev)) ∧
     (∀ (n : String) (af : Bool) (cs rest : List Entry) (rf1 rf2 : Bool),
        (sweepList 3 0 [] (Entry.dir n af rf1 cs :: rest) ⟨0, 0, 0⟩).2.1
          = (sweepList 3 0 [] (Entry.dir n af rf2 cs :: rest) ⟨0, 0, 0⟩).2.1)) :=
  ⟨⟨by simp, by simp [wfSiblings]⟩,
   claim_C9_postorder_removal 3 0 [] [Entry.dir "d" false false [Entry.file "a" 5 false false]]
     ⟨0, 0, 0⟩ (by simp) (by simp [wfSiblings])⟩

/-- C10: `clean_browser_cache` called with `force = false` while the browser
is detected as running returns a failure result with `size_freed = 0` and
performs no deletion at all: every cache path is returned unchanged. -/
theorem claim_C10_running_browser_no_deletion (paths : List (Option CacheDir)) :
    clean_browser_cache true false paths
      = ({ success := false, size_freed := 0, paths_cleaned := 0, errors := 0 }, paths) :=
  rfl
